import Mathlib

/-!
Verification of the bluesky-feeds repository core: the Postgres-backed post
store with keyset pagination and bounded retention, the keyword/language
matching engine, the firehose subscriber connection logic, the checkpoint
persistence discipline, and the read-path HTTP handler.

Modelling conventions.

Timestamps are integers counting microseconds since the epoch, matching the
precision at which Postgres stores a timestamptz value produced by the Go
time package. The pagination cursor encodes a timestamp at millisecond
granularity (Go UnixMilli truncates with floor division), so the encoding is
lossy on sub-millisecond components; this is modelled exactly.

Strings that are parsed character by character (cursors, numeric query
parameters) are modelled as List Char, the data underlying a Lean String.
Post fields and keywords stay as String. Database text ordering is modelled
as the lexicographic character order; the 64-bit overflow check of the Go
integer parser is not modelled (cursor values in scope are tiny).

Database and network input/output errors are outside the shallow embedding:
repository operations are total functions on an explicit store state, and
the only failure modelled for the read path is the one the repository itself
produces deterministically, a cursor that fails to decode.
-/

/-! ## Decimal formatting and parsing of integers

Models fmt.Sprintf with a %d verb and strconv.ParseInt with base 10 as used
by the cursor encoding in GetFeedPosts and parseCursor. -/

/-- Decimal digit character for a value below ten. -/
def digitChar (n : Nat) : Char := Char.ofNat (48 + n)

/-- Fueled digit expansion; the fuel only drives structural recursion so
that the function evaluates inside the kernel, and is always sufficient at
the call site below. -/
def natToCharsAux : Nat → Nat → List Char
  | 0, _ => []
  | fuel + 1, n =>
    if n < 10 then [digitChar n]
    else natToCharsAux fuel (n / 10) ++ [digitChar (n % 10)]

/-- Decimal representation of a natural number, most significant digit
first, as produced by the Go formatting verb %d. -/
def natToChars (n : Nat) : List Char := natToCharsAux (n + 1) n

/-- Decimal representation of an integer, with a leading minus sign for
negative values, as produced by the Go formatting verb %d. -/
def intToChars (i : Int) : List Char :=
  if i < 0 then '-' :: natToChars i.natAbs else natToChars i.natAbs

/-- Recognizer for ASCII decimal digits. -/
def isDigitChar (c : Char) : Bool := 48 ≤ c.toNat && c.toNat ≤ 57

/-- Accumulated value of a digit string, as built by the Go integer parser. -/
def parseNatVal (cs : List Char) : Nat :=
  cs.foldl (fun a c => a * 10 + (c.toNat - 48)) 0

/-- Parse an unsigned decimal digit string; at least one digit is required
and every character must be a digit, as in strconv.ParseInt after sign
stripping. The 64-bit range check is not modelled. -/
def parseNatChars (cs : List Char) : Option Nat :=
  if cs.isEmpty then none
  else if cs.all isDigitChar then some (parseNatVal cs) else none

/-- Parse a decimal integer with an optional single leading sign, as in
strconv.ParseInt with base 10. -/
def parseIntChars : List Char → Option Int
  | [] => none
  | c :: rest =>
    if c = '+' then (parseNatChars rest).map (fun n : Nat => (n : Int))
    else if c = '-' then (parseNatChars rest).map (fun n : Nat => -(n : Int))
    else (parseNatChars (c :: rest)).map (fun n : Nat => (n : Int))

theorem digitChar_toNat {n : Nat} (h : n < 10) : (digitChar n).toNat = 48 + n := by
  interval_cases n <;> decide

theorem isDigitChar_digitChar {n : Nat} (h : n < 10) : isDigitChar (digitChar n) = true := by
  interval_cases n <;> decide

theorem natToCharsAux_irrel : ∀ f1 f2 n, n < f1 → n < f2 →
    natToCharsAux f1 n = natToCharsAux f2 n
  | f1 + 1, f2 + 1, n, _, _ => by
    simp only [natToCharsAux]
    by_cases h : n < 10
    · simp [h]
    · simp only [h, if_false]
      have hd : n / 10 < f1 ∧ n / 10 < f2 := by omega
      rw [natToCharsAux_irrel f1 f2 (n / 10) hd.1 hd.2]

/-- The recursion equation of the decimal expansion, independent of fuel. -/
theorem natToChars_eq (n : Nat) : natToChars n =
    if n < 10 then [digitChar n]
    else natToChars (n / 10) ++ [digitChar (n % 10)] := by
  show natToCharsAux (n + 1) n = _
  by_cases h : n < 10
  · simp [natToCharsAux, h]
  · simp only [natToCharsAux, h, if_false]
    rw [natToCharsAux_irrel n (n / 10 + 1) (n / 10) (by omega) (by omega)]
    rfl

theorem natToChars_ne_nil (n : Nat) : natToChars n ≠ [] := by
  rw [natToChars_eq]
  split <;> simp

theorem natToChars_all_digits (n : Nat) : (natToChars n).all isDigitChar = true := by
  induction n using Nat.strong_induction_on with
  | _ n ih =>
    rw [natToChars_eq]
    by_cases h : n < 10
    · simp [h, isDigitChar_digitChar h]
    · simp only [h, if_false, List.all_append, List.all_cons, List.all_nil]
      rw [ih (n / 10) (by omega)]
      simp [isDigitChar_digitChar (Nat.mod_lt n (by omega))]

theorem parseNatVal_append (a b : List Char) :
    parseNatVal (a ++ b) = b.foldl (fun x c => x * 10 + (c.toNat - 48)) (parseNatVal a) := by
  simp [parseNatVal, List.foldl_append]

theorem parseNatVal_natToChars (n : Nat) : parseNatVal (natToChars n) = n := by
  induction n using Nat.strong_induction_on with
  | _ n ih =>
    rw [natToChars_eq]
    by_cases h : n < 10
    · simp only [h, if_true, parseNatVal, List.foldl_cons, List.foldl_nil]
      rw [digitChar_toNat h]
      omega
    · simp only [h, if_false, parseNatVal_append, List.foldl_cons, List.foldl_nil,
        ih (n / 10) (by omega)]
      rw [digitChar_toNat (Nat.mod_lt n (by omega))]
      omega

theorem parseNatChars_natToChars (n : Nat) : parseNatChars (natToChars n) = some n := by
  have h1 := natToChars_ne_nil n
  have h2 := natToChars_all_digits n
  simp [parseNatChars, List.isEmpty_iff, h1, h2, parseNatVal_natToChars]

theorem natToChars_head_digit {n : Nat} {c : Char} {rest : List Char}
    (h : natToChars n = c :: rest) : isDigitChar c = true := by
  have := natToChars_all_digits n
  rw [h] at this
  simp only [List.all_cons, Bool.and_eq_true] at this
  exact this.1

theorem parseIntChars_intToChars (i : Int) : parseIntChars (intToChars i) = some i := by
  by_cases hneg : i < 0
  · rw [intToChars, if_pos hneg, parseIntChars, if_neg (by decide), if_pos rfl,
      parseNatChars_natToChars]
    simp only [Option.map_some', Option.some.injEq]
    rw [Int.ofNat_natAbs_of_nonpos (le_of_lt hneg), neg_neg]
  · rw [intToChars, if_neg hneg]
    rcases hn : natToChars i.natAbs with _ | ⟨c, rest⟩
    · exact absurd hn (natToChars_ne_nil _)
    · have hdig : isDigitChar c = true := natToChars_head_digit hn
      have hc48 : 48 ≤ c.toNat := by
        simp only [isDigitChar, Bool.and_eq_true, decide_eq_true_eq] at hdig
        exact hdig.1
      have hplus : c ≠ '+' := by
        intro h; rw [h] at hc48; simp at hc48
      have hminus : c ≠ '-' := by
        intro h; rw [h] at hc48; simp at hc48
      rw [parseIntChars, if_neg hplus, if_neg hminus, ← hn, parseNatChars_natToChars]
      simp only [Option.map_some', Option.some.injEq]
      exact Int.natAbs_of_nonneg (not_lt.mp hneg)

/-- Every character emitted by the integer formatter is a minus sign or an
ASCII digit, so a colon never appears inside it. -/
theorem colon_not_mem_intToChars (i : Int) : ':' ∉ intToChars i := by
  intro hmem
  have hdig : ∀ c ∈ natToChars i.natAbs, isDigitChar c = true := by
    have := natToChars_all_digits i.natAbs
    simpa [List.all_eq_true] using this
  unfold intToChars at hmem
  have hcolon : isDigitChar ':' = true → False := by decide
  split at hmem
  · rcases List.mem_cons.mp hmem with h | h
    · exact absurd h.symm (by decide)
    · exact hcolon (hdig _ h)
  · exact hcolon (hdig _ hmem)

/-! ## Cursor string splitting

Models strings.SplitN(cursor, "::", 2) as used by parseCursor: scan left to
right for the first occurrence of the two-character separator; when present,
return the prefix before it and the full remainder after it. -/

/-- Split a character list at the first occurrence of a double colon.
Returns none when no double colon occurs, matching the length check the Go
code performs on the result of SplitN. -/
def splitCursor : List Char → Option (List Char × List Char)
  | [] => none
  | c :: rest =>
    if c = ':' ∧ rest.head? = some ':' then some ([], rest.tail)
    else (splitCursor rest).map (fun pr => (c :: pr.1, pr.2))

theorem splitCursor_append (a b : List Char) (ha : ':' ∉ a) :
    splitCursor (a ++ ':' :: ':' :: b) = some (a, b) := by
  induction a with
  | nil => simp [splitCursor]
  | cons c a ih =>
    have hc : c ≠ ':' := fun h => ha (h ▸ List.mem_cons_self c a)
    have ha' : ':' ∉ a := fun h => ha (List.mem_cons_of_mem c h)
    rw [List.cons_append, splitCursor, if_neg (by simp [hc]), ih ha', Option.map_some']

/-! ## The post store

Models the posts table of the Postgres repository: rows with a unique uri
primary key, a cid, and an indexed_at timestamp, together with the composite
descending index on (indexed_at, cid). A store is the list of rows; the
SELECT ordering (indexed_at DESC, cid DESC) is modelled by sorting under the
lexicographic key order, descending. -/

/-- One row of the posts table. The indexedAt field counts microseconds. -/
structure Post where
  uri : String
  cid : String
  indexedAt : Int
deriving DecidableEq

/-- The pair compared by ORDER BY indexed_at, cid and by the row comparison
in the keyset WHERE clause. -/
def keyP (p : Post) : Int × String := (p.indexedAt, p.cid)

/-- The same pair under the lexicographic order used by SQL row comparison. -/
def keyL (p : Post) : Lex (Int × String) := toLex (keyP p)

/-! ### Kernel-computable comparison

The text ordering of the database is modelled as lexicographic character
order. The following Boolean comparators evaluate by plain recursion, and
are proved equivalent to the lexicographic order used in the statements, so
concrete instances can be settled by decide. -/

/-- Lexicographic comparison of character lists by code point. -/
def charsLtb : List Char → List Char → Bool
  | [], [] => false
  | [], _ :: _ => true
  | _ :: _, [] => false
  | a :: as, b :: bs =>
    if a.toNat < b.toNat then true
    else if b.toNat < a.toNat then false
    else charsLtb as bs

theorem charsLtb_iff : ∀ s t : List Char,
    charsLtb s t = true ↔ List.Lex (· < ·) s t
  | [], [] => iff_of_false (by simp [charsLtb]) (List.Lex.not_nil_right _ _)
  | [], _ :: _ => iff_of_true rfl List.Lex.nil
  | _ :: _, [] => iff_of_false (by simp [charsLtb]) (List.Lex.not_nil_right _ _)
  | a :: as, b :: bs => by
    by_cases h1 : a.toNat < b.toNat
    · exact iff_of_true (by simp [charsLtb, h1]) (List.Lex.rel h1)
    · by_cases h2 : b.toNat < a.toNat
      · refine iff_of_false (by simp [charsLtb, h1, h2]) ?_
        intro hlex
        cases hlex with
        | rel h => exact h1 h
        | cons h => exact absurd h2 (lt_irrefl _)
      · have hab : a = b := by
          have h3 : a.toNat = b.toNat := by omega
          exact Char.eq_of_val_eq (UInt32.toNat.inj h3)
        subst hab
        have hred : charsLtb (a :: as) (a :: bs) = charsLtb as bs := by
          simp [charsLtb, h1]
        rw [hred, charsLtb_iff as bs]
        constructor
        · exact List.Lex.cons
        · intro hlex
          cases hlex with
          | rel h => exact absurd h (lt_irrefl a)
          | cons h => exact h

theorem charsLtb_iff_string (s t : String) :
    charsLtb s.data t.data = true ↔ s < t := by
  rw [charsLtb_iff, String.lt_iff_toList_lt]
  exact Iff.rfl

/-- Boolean form of the lexicographic row comparison on key pairs. -/
def pairLtb (k1 k2 : Int × String) : Bool :=
  decide (k1.1 < k2.1) || (decide (k1.1 = k2.1) && charsLtb k1.2.data k2.2.data)

theorem pairLtb_iff (k1 k2 : Int × String) :
    pairLtb k1 k2 = true ↔ toLex k1 < toLex k2 := by
  rw [Prod.Lex.lt_iff]
  simp [pairLtb, charsLtb_iff_string]

/-- Boolean form of the non-strict lexicographic comparison. -/
def pairLeb (k1 k2 : Int × String) : Bool :=
  pairLtb k1 k2 || decide (k1 = k2)

theorem pairLeb_iff (k1 k2 : Int × String) :
    pairLeb k1 k2 = true ↔ toLex k1 ≤ toLex k2 := by
  rw [le_iff_lt_or_eq]
  have : toLex k1 = toLex k2 ↔ k1 = k2 :=
    ⟨fun h => toLex.injective h, fun h => congrArg toLex h⟩
  simp [pairLeb, pairLtb_iff, this]

instance decKeyLLtToLex (p : Post) (k : Int × String) :
    Decidable (keyL p < toLex k) :=
  decidable_of_iff _ (pairLtb_iff (keyP p) k)

instance decKeyLLtKeyL (p q : Post) : Decidable (keyL p < keyL q) :=
  decidable_of_iff _ (pairLtb_iff (keyP p) (keyP q))

/-- Descending comparison on rows, the relation realising
ORDER BY indexed_at DESC, cid DESC. -/
def postDescLE (a b : Post) : Prop := keyL b ≤ keyL a

instance : DecidableRel postDescLE :=
  fun a b => decidable_of_iff _ (pairLeb_iff (keyP b) (keyP a))

instance : IsTotal Post postDescLE := ⟨fun a b => le_total (keyL b) (keyL a)⟩

instance : IsTrans Post postDescLE := ⟨fun _ _ _ h1 h2 => le_trans h2 h1⟩

/-- The store as ordered by the SELECT statements: descending in
(indexed_at, cid). -/
def sortDesc (store : List Post) : List Post := List.insertionSort postDescLE store

/-- Cursor encoding of the last returned row, as produced by
fmt.Sprintf with the UnixMilli value of indexed_at followed by a double
colon and the cid. UnixMilli is floor division of the microsecond timestamp
by one thousand. -/
def mkCursor (p : Post) : List Char :=
  intToChars (p.indexedAt.fdiv 1000) ++ ':' :: ':' :: p.cid.data

/-- Models parseCursor: split on the first double colon, parse the first
part as a millisecond count, and interpret it at microsecond precision the
way time.UnixMilli does. The remainder is the cid part. -/
def parseCursor (cursor : List Char) : Option (Int × String) :=
  match splitCursor cursor with
  | none => none
  | some (tpart, cidpart) =>
    match parseIntChars tpart with
    | none => none
    | some millis => some (millis * 1000, String.mk cidpart)

/-- Models the nextCursor computation of GetFeedPosts: set only when the
page came back full. For a full page of a positive limit the posts list is
nonempty; the Go code indexes the last element unconditionally. -/
def nextCursorOf (posts : List Post) (limit : Nat) : List Char :=
  if posts.length = limit then
    match posts.getLast? with
    | some last => mkCursor last
    | none => []
  else []

/-- Models Repository.GetFeedPosts. With an empty cursor the newest rows are
returned; with a cursor that decodes to a pair, exactly the rows strictly
below that pair in the lexicographic order are eligible. A cursor that fails
to decode is an error, modelled as none. -/
def GetFeedPosts (store : List Post) (limit : Nat) (cursor : List Char) :
    Option (List Post × List Char) :=
  if cursor ≠ [] then
    match parseCursor cursor with
    | none => none
    | some (ct, ccid) =>
      let posts := ((sortDesc store).filter
        (fun p => decide (keyL p < toLex (ct, ccid)))).take limit
      some (posts, nextCursorOf posts limit)
  else
    let posts := (sortDesc store).take limit
    some (posts, nextCursorOf posts limit)

/-- Models Repository.CreatePost: INSERT with ON CONFLICT (uri) DO NOTHING. -/
def CreatePost (store : List Post) (post : Post) : List Post :=
  if store.any (fun q => q.uri == post.uri) then store else store ++ [post]

/-- Models Repository.DeleteOldPosts: inside one transaction, first delete
every row with indexed_at strictly before the cutoff, then delete the rows
whose uri falls beyond the first maxRows of the remaining rows under the
descending (indexed_at, cid) order; report the summed row counts. -/
def DeleteOldPosts (store : List Post) (now maxAge : Int) (maxRows : Nat) :
    List Post × Nat :=
  let cutoff := now - maxAge
  let kept := store.filter (fun p => !decide (p.indexedAt < cutoff))
  let ttlDeleted := store.length - kept.length
  let excessUris := ((sortDesc kept).drop maxRows).map Post.uri
  let final := kept.filter (fun p => decide (p.uri ∉ excessUris))
  let capDeleted := kept.length - final.length
  (final, ttlDeleted + capDeleted)

/-- Client pagination loop for the keyset contract: call GetFeedPosts, and
while the returned cursor is nonempty feed it back, concatenating the pages.
The only successful exit is through an empty next cursor, so a some result
also certifies termination with an empty cursor within the given fuel. -/
def collectFeedPages : Nat → List Post → Nat → List Char → Option (List Post)
  | 0, _, _, _ => none
  | fuel + 1, store, limit, cursor =>
    match GetFeedPosts store limit cursor with
    | none => none
    | some (posts, next) =>
      if next = [] then some posts
      else (collectFeedPages fuel store limit next).map (fun rest => posts ++ rest)

/-! ## Round trip of the pagination cursor -/

theorem stringMk_data (s : String) : String.mk s.data = s := rfl

theorem mkCursor_ne_nil (p : Post) : mkCursor p ≠ [] := by
  unfold mkCursor
  intro h
  rcases List.append_eq_nil.mp h with ⟨-, h2⟩
  exact List.cons_ne_nil _ _ h2

/-- When the timestamp is a whole number of milliseconds the cursor encoding
loses nothing and decodes back to the exact key pair of the row. -/
theorem parseCursor_mkCursor (p : Post) (hms : p.indexedAt % 1000 = 0) :
    parseCursor (mkCursor p) = some (p.indexedAt, p.cid) := by
  obtain ⟨k, hk⟩ : (1000 : Int) ∣ p.indexedAt := Int.dvd_of_emod_eq_zero hms
  have hsplit : splitCursor (mkCursor p) =
      some (intToChars (p.indexedAt.fdiv 1000), p.cid.data) :=
    splitCursor_append _ _ (colon_not_mem_intToChars _)
  unfold parseCursor
  rw [hsplit]
  dsimp only
  rw [parseIntChars_intToChars]
  dsimp only
  rw [stringMk_data, hk, Int.mul_fdiv_cancel_left _ (by norm_num), mul_comm]

/-! ## Order lemmas for the sorted store -/

theorem sortDesc_perm (l : List Post) : (sortDesc l).Perm l :=
  List.perm_insertionSort postDescLE l

theorem sortDesc_sorted (l : List Post) : (sortDesc l).Pairwise postDescLE :=
  List.sorted_insertionSort postDescLE l

theorem keyL_eq_iff {a b : Post} : keyL a = keyL b ↔ keyP a = keyP b :=
  ⟨fun h => toLex.injective h, fun h => congrArg toLex h⟩

/-- Under pairwise distinct key pairs the sorted store is strictly
descending. -/
theorem sortDesc_strict {l : List Post}
    (h : l.Pairwise (fun a b => keyP a ≠ keyP b)) :
    (sortDesc l).Pairwise (fun a b => keyL b < keyL a) := by
  have hne : (sortDesc l).Pairwise (fun a b => keyP a ≠ keyP b) :=
    (List.Perm.pairwise_iff (fun {_ _} hab => Ne.symm hab) (sortDesc_perm l)).mpr h
  refine ((sortDesc_sorted l).and hne).imp ?_
  rintro a b ⟨hle, hab⟩
  exact lt_of_le_of_ne hle (fun heq => hab (keyL_eq_iff.mp heq.symm))

/-- In a strictly descending list split around a pivot row, the rows
strictly below the pivot key are exactly the suffix after the pivot. -/
theorem filter_lt_pivot {S P T : List Post} {p : Post} {k : Int × String}
    (hsort : S.Pairwise (fun a b => keyL b < keyL a)) (hS : S = P ++ p :: T)
    (hk : toLex k = keyL p) :
    S.filter (fun q => decide (keyL q < toLex k)) = T := by
  subst hS
  rw [List.pairwise_append] at hsort
  obtain ⟨hP, hpT, hcross⟩ := hsort
  rw [List.pairwise_cons] at hpT
  obtain ⟨hT, -⟩ := hpT
  rw [List.filter_append]
  have h1 : P.filter (fun q => decide (keyL q < toLex k)) = [] := by
    rw [List.filter_eq_nil_iff]
    intro q hq
    have := hcross q hq p (List.mem_cons_self p T)
    simp only [decide_eq_true_eq, hk]
    exact not_lt_of_gt this
  have h2 : (p :: T).filter (fun q => decide (keyL q < toLex k)) = T := by
    rw [List.filter_cons_of_neg (by simp [hk]), List.filter_eq_self.mpr]
    intro q hq
    simp only [decide_eq_true_eq, hk]
    exact hT q hq
  rw [h1, h2, List.nil_append]

/-- Decompose a list around the last element of its first n entries. -/
theorem split_at_take {α : Type} (L : List α) (n : Nat) (h1 : 1 ≤ n)
    (h2 : n ≤ L.length) :
    ∃ q, (L.take n).getLast? = some q ∧ q ∈ L ∧
      L = (L.take n).dropLast ++ q :: L.drop n := by
  have hlen : (L.take n).length = n := by
    rw [List.length_take]
    omega
  have hne : L.take n ≠ [] := by
    intro h
    rw [h] at hlen
    simp at hlen
    omega
  refine ⟨(L.take n).getLast hne, List.getLast?_eq_getLast _ hne, ?_, ?_⟩
  · exact List.take_subset n L (List.getLast_mem hne)
  · calc L = L.take n ++ L.drop n := (List.take_append_drop n L).symm
      _ = ((L.take n).dropLast ++ [(L.take n).getLast hne]) ++ L.drop n := by
          rw [List.dropLast_append_getLast hne]
      _ = (L.take n).dropLast ++ (L.take n).getLast hne :: L.drop n := by
          rw [List.append_assoc, List.singleton_append]

/-! ## Keyset pagination walks the sorted store -/

/-- One page fetched with the cursor of a pivot row of the sorted store
returns exactly the next slice after the pivot. Requires the pivot
timestamp to be millisecond aligned so the cursor decodes exactly. -/
theorem getFeedPosts_cursor_step (store : List Post) (limit : Nat)
    (P T : List Post) (p : Post)
    (hstrict : (sortDesc store).Pairwise (fun a b => keyL b < keyL a))
    (hsplit : sortDesc store = P ++ p :: T)
    (hms : p.indexedAt % 1000 = 0) :
    GetFeedPosts store limit (mkCursor p) =
      some (T.take limit, nextCursorOf (T.take limit) limit) := by
  unfold GetFeedPosts
  rw [if_pos (mkCursor_ne_nil p), parseCursor_mkCursor p hms]
  dsimp only
  rw [filter_lt_pivot (k := (p.indexedAt, p.cid)) hstrict hsplit rfl]

/-- The pagination loop started from the cursor of a pivot row returns the
whole suffix after the pivot, given enough fuel. -/
theorem collectFeedPages_from_pivot (store : List Post) (limit : Nat)
    (hl : 1 ≤ limit)
    (hstrict : (sortDesc store).Pairwise (fun a b => keyL b < keyL a))
    (hms : ∀ q ∈ store, q.indexedAt % 1000 = 0) :
    ∀ fuel P p T, sortDesc store = P ++ p :: T → T.length < fuel →
      collectFeedPages fuel store limit (mkCursor p) = some T := by
  intro fuel
  induction fuel with
  | zero => intro P p T _ h; omega
  | succ fuel ih =>
    intro P p T hsplit hlen
    have hpmem : p ∈ store := (sortDesc_perm store).mem_iff.mp
      (hsplit ▸ List.mem_append.mpr (Or.inr (List.mem_cons_self p T)))
    rw [collectFeedPages,
      getFeedPosts_cursor_step store limit P T p hstrict hsplit (hms p hpmem)]
    dsimp only
    by_cases hcase : limit ≤ T.length
    · obtain ⟨q, hqlast, hqmemT, hTsplit⟩ := split_at_take T limit hl hcase
      have hlenT : (T.take limit).length = limit := by
        rw [List.length_take]; omega
      have hnext : nextCursorOf (T.take limit) limit = mkCursor q := by
        unfold nextCursorOf
        rw [if_pos hlenT, hqlast]
      rw [hnext, if_neg (mkCursor_ne_nil q)]
      have hqstore : q ∈ store := (sortDesc_perm store).mem_iff.mp
        (hsplit ▸ List.mem_append.mpr (Or.inr (List.mem_cons_of_mem p hqmemT)))
      have hsplit' : sortDesc store =
          (P ++ p :: (T.take limit).dropLast) ++ q :: T.drop limit := by
        rw [hsplit]
        conv_lhs => rw [hTsplit]
        simp [List.cons_append, List.append_assoc]
      have hdroplen : (T.drop limit).length < fuel := by
        rw [List.length_drop]; omega
      rw [ih (P ++ p :: (T.take limit).dropLast) q (T.drop limit) hsplit' hdroplen,
        Option.map_some', List.take_append_drop]
    · push_neg at hcase
      have htake : T.take limit = T := List.take_of_length_le (by omega)
      have hnil : nextCursorOf (T.take limit) limit = [] := by
        unfold nextCursorOf
        rw [if_neg]
        rw [htake]
        omega
      rw [hnil, if_pos rfl, htake]

/-- C2 (amended): with millisecond-aligned timestamps, pairwise distinct
(indexed_at, cid) pairs and a positive page size, iterating GetFeedPosts
from the empty cursor returns the entire store in descending key order, a
permutation of the store, so no post is duplicated or omitted, and the loop
exits through an empty next cursor. -/
theorem collectFeedPages_total (store : List Post) (limit : Nat)
    (hl : 1 ≤ limit)
    (hkeys : store.Pairwise (fun a b => keyP a ≠ keyP b))
    (hms : ∀ q ∈ store, q.indexedAt % 1000 = 0) :
    collectFeedPages (store.length + 1) store limit [] = some (sortDesc store) ∧
    (sortDesc store).Perm store := by
  refine ⟨?_, sortDesc_perm store⟩
  have hstrict := sortDesc_strict hkeys
  have hSlen : (sortDesc store).length = store.length := (sortDesc_perm store).length_eq
  have hempty : GetFeedPosts store limit [] =
      some ((sortDesc store).take limit,
        nextCursorOf ((sortDesc store).take limit) limit) := by
    unfold GetFeedPosts
    rw [if_neg (by simp)]
  rw [collectFeedPages, hempty]
  dsimp only
  by_cases hcase : limit ≤ store.length
  · obtain ⟨q, hqlast, hqmem, hTsplit⟩ :=
      split_at_take (sortDesc store) limit hl (by omega)
    have hlenT : ((sortDesc store).take limit).length = limit := by
      rw [List.length_take]; omega
    have hnext : nextCursorOf ((sortDesc store).take limit) limit = mkCursor q := by
      unfold nextCursorOf
      rw [if_pos hlenT, hqlast]
    rw [hnext, if_neg (mkCursor_ne_nil q)]
    have hdlen : ((sortDesc store).drop limit).length < store.length := by
      rw [List.length_drop]; omega
    rw [collectFeedPages_from_pivot store limit hl hstrict hms store.length
      ((sortDesc store).take limit).dropLast q ((sortDesc store).drop limit)
      hTsplit hdlen, Option.map_some', List.take_append_drop]
  · push_neg at hcase
    have htake : (sortDesc store).take limit = sortDesc store :=
      List.take_of_length_le (by omega)
    have hnil : nextCursorOf ((sortDesc store).take limit) limit = [] := by
      unfold nextCursorOf
      rw [if_neg]
      rw [htake, hSlen]
      omega
    rw [hnil, if_pos rfl, htake]

/-! ## Characterizing a single page -/

theorem nextCursorOf_eq_nil_iff (posts : List Post) (limit : Nat) :
    nextCursorOf posts limit = [] ↔ posts.length ≠ limit ∨ posts = [] := by
  unfold nextCursorOf
  constructor
  · intro h
    by_cases hlen : posts.length = limit
    · rw [if_pos hlen] at h
      rcases hp : posts.getLast? with - | q
      · exact Or.inr (List.getLast?_eq_none_iff.mp hp)
      · rw [hp] at h
        exact absurd h (mkCursor_ne_nil q)
    · exact Or.inl hlen
  · intro h
    rcases h with h | h
    · rw [if_neg h]
    · subst h
      by_cases hlen : ([] : List Post).length = limit
      · rw [if_pos hlen]
        rfl
      · rw [if_neg hlen]

theorem nextCursorOf_full (posts : List Post) (limit : Nat) (hne : posts ≠ [])
    (hlen : posts.length = limit) :
    nextCursorOf posts limit = mkCursor (posts.getLast hne) := by
  unfold nextCursorOf
  rw [if_pos hlen, List.getLast?_eq_getLast _ hne]

/-- The first n entries of a strictly descending list are a page: they are
strictly descending themselves and dominate every eligible row left out. -/
theorem take_is_page (L : List Post) (n : Nat)
    (hstrict : L.Pairwise (fun a b => keyL b < keyL a)) :
    (L.take n).Pairwise (fun a b => keyL b < keyL a) ∧
    (∀ p ∈ L, p ∉ L.take n → ∀ q ∈ L.take n, keyL p < keyL q) := by
  constructor
  · exact List.Pairwise.sublist (List.take_sublist n L) hstrict
  · intro p hp hnp q hq
    have hsplit : List.Pairwise (fun a b => keyL b < keyL a) (L.take n ++ L.drop n) := by
      rw [List.take_append_drop]
      exact hstrict
    have hpd : p ∈ L.drop n := by
      rcases List.mem_append.mp ((List.take_append_drop n L).symm ▸ hp) with h | h
      · exact absurd h hnp
      · exact h
    exact (List.pairwise_append.mp hsplit).2.2 q hq p hpd

/-- C1 (amended): under distinct key pairs, a page is ordered by
(indexedAt desc, cid desc), contains exactly the top rows of the store that
lie strictly below the decoded cursor pair under that same order, an absent
cursor starting from the newest, and the next cursor is the encoding of the
last returned (indexedAt in milliseconds, cid) pair, set exactly on a full
nonempty page. The tie break and the cursor pair use the cid, not the uri
stated by the specification. -/
theorem getFeedPosts_pages (store : List Post) (limit : Nat)
    (hkeys : store.Pairwise (fun a b => keyP a ≠ keyP b)) :
    (∀ posts next, GetFeedPosts store limit [] = some (posts, next) →
      posts.Pairwise (fun a b => keyL b < keyL a) ∧
      (∀ p ∈ posts, p ∈ store) ∧
      posts.length = min limit store.length ∧
      (∀ p ∈ store, p ∉ posts → ∀ q ∈ posts, keyL p < keyL q) ∧
      (next = [] ↔ posts.length ≠ limit ∨ posts = []) ∧
      (∀ hne : posts ≠ [], posts.length = limit →
        next = mkCursor (posts.getLast hne))) ∧
    (∀ c ct ccid posts next, c ≠ [] → parseCursor c = some (ct, ccid) →
      GetFeedPosts store limit c = some (posts, next) →
      posts.Pairwise (fun a b => keyL b < keyL a) ∧
      (∀ p ∈ posts, p ∈ store ∧ keyL p < toLex (ct, ccid)) ∧
      posts.length =
        min limit (store.countP (fun p => decide (keyL p < toLex (ct, ccid)))) ∧
      (∀ p ∈ store, keyL p < toLex (ct, ccid) → p ∉ posts →
        ∀ q ∈ posts, keyL p < keyL q) ∧
      (next = [] ↔ posts.length ≠ limit ∨ posts = []) ∧
      (∀ hne : posts ≠ [], posts.length = limit →
        next = mkCursor (posts.getLast hne))) := by
  have hstrict := sortDesc_strict hkeys
  constructor
  · intro posts next heq
    have hempty : GetFeedPosts store limit [] =
        some ((sortDesc store).take limit,
          nextCursorOf ((sortDesc store).take limit) limit) := by
      unfold GetFeedPosts
      rw [if_neg (by simp)]
    rw [hempty] at heq
    obtain ⟨hposts, hnext⟩ := Prod.mk.inj (Option.some.inj heq)
    subst hposts
    subst hnext
    obtain ⟨hpw, hcross⟩ := take_is_page (sortDesc store) limit hstrict
    refine ⟨hpw, ?_, ?_, ?_, nextCursorOf_eq_nil_iff _ _, nextCursorOf_full _ _⟩
    · intro p hp
      exact (sortDesc_perm store).mem_iff.mp (List.take_subset _ _ hp)
    · rw [List.length_take, (sortDesc_perm store).length_eq]
    · intro p hp
      exact hcross p ((sortDesc_perm store).mem_iff.mpr hp)
  · intro c ct ccid posts next hcne hparse heq
    have hcur : GetFeedPosts store limit c =
        some ((((sortDesc store).filter
            (fun p => decide (keyL p < toLex (ct, ccid)))).take limit),
          nextCursorOf (((sortDesc store).filter
            (fun p => decide (keyL p < toLex (ct, ccid)))).take limit) limit) := by
      unfold GetFeedPosts
      rw [if_pos hcne, hparse]
    rw [hcur] at heq
    obtain ⟨hposts, hnext⟩ := Prod.mk.inj (Option.some.inj heq)
    subst hposts
    subst hnext
    have hstrictL : ((sortDesc store).filter
        (fun p => decide (keyL p < toLex (ct, ccid)))).Pairwise
        (fun a b => keyL b < keyL a) :=
      List.Pairwise.sublist (List.filter_sublist _) hstrict
    obtain ⟨hpw, hcross⟩ := take_is_page _ limit hstrictL
    refine ⟨hpw, ?_, ?_, ?_, nextCursorOf_eq_nil_iff _ _, nextCursorOf_full _ _⟩
    · intro p hp
      have hmem := List.take_subset _ _ hp
      rw [List.mem_filter] at hmem
      exact ⟨(sortDesc_perm store).mem_iff.mp hmem.1, by simpa using hmem.2⟩
    · rw [List.length_take, ← List.countP_eq_length_filter,
        (sortDesc_perm store).countP_eq]
    · intro p hp hlt
      refine hcross p ?_
      rw [List.mem_filter]
      exact ⟨(sortDesc_perm store).mem_iff.mpr hp, by simpa using hlt⟩

/-! ## Eviction -/

/-- C4 (amended): under unique uris, the count DeleteOldPosts reports is
exactly the number of rows removed, the surviving rows are precisely the
newest maxRows of the rows inside the age window under the descending
(indexed_at, cid) order, cid rather than the uri stated by the
specification, every survivor is an original row inside the age window, and
a full store is trimmed to exactly maxRows rows. Both passes are one pure
transition, the code running them inside a single transaction. -/
theorem deleteOldPosts_spec (store : List Post) (now maxAge : Int) (maxRows : Nat)
    (hnodup : store.Pairwise (fun a b => a.uri ≠ b.uri)) :
    (DeleteOldPosts store now maxAge maxRows).2 =
      store.length - (DeleteOldPosts store now maxAge maxRows).1.length ∧
    (DeleteOldPosts store now maxAge maxRows).1.Perm
      ((sortDesc (store.filter
        (fun p => !decide (p.indexedAt < now - maxAge)))).take maxRows) ∧
    (∀ p ∈ (DeleteOldPosts store now maxAge maxRows).1,
      p ∈ store ∧ ¬ p.indexedAt < now - maxAge) ∧
    (maxRows ≤ (store.filter
        (fun p => !decide (p.indexedAt < now - maxAge))).length →
      (DeleteOldPosts store now maxAge maxRows).1.length = maxRows) := by
  unfold DeleteOldPosts
  dsimp only
  set kept := store.filter (fun p => !decide (p.indexedAt < now - maxAge)) with hkept
  set Sk := sortDesc kept with hSk
  set excess := (Sk.drop maxRows).map Post.uri with hexcess
  set final := kept.filter (fun p => decide (p.uri ∉ excess)) with hfinal
  have hkeptnd : kept.Pairwise (fun a b => a.uri ≠ b.uri) :=
    List.Pairwise.sublist (List.filter_sublist _) hnodup
  have hSknd : Sk.Pairwise (fun a b => a.uri ≠ b.uri) :=
    (List.Perm.pairwise_iff (fun {_ _} hab => Ne.symm hab) (sortDesc_perm kept)).mpr
      hkeptnd
  have hdropnil : (Sk.drop maxRows).filter (fun p => decide (p.uri ∉ excess)) = [] := by
    rw [List.filter_eq_nil_iff]
    intro p hp
    simp only [decide_eq_true_eq, not_not]
    exact List.mem_map_of_mem Post.uri hp
  have htakeall : (Sk.take maxRows).filter (fun p => decide (p.uri ∉ excess)) =
      Sk.take maxRows := by
    rw [List.filter_eq_self]
    intro p hp
    simp only [decide_eq_true_eq]
    intro hmem
    obtain ⟨q, hq, hqe⟩ := List.mem_map.mp hmem
    have hpairs : List.Pairwise (fun a b => a.uri ≠ b.uri)
        (Sk.take maxRows ++ Sk.drop maxRows) := by
      rw [List.take_append_drop]
      exact hSknd
    exact (List.pairwise_append.mp hpairs).2.2 p hp q hq hqe.symm
  have hperm : final.Perm (Sk.take maxRows) := by
    have h1 : final.Perm (Sk.filter (fun p => decide (p.uri ∉ excess))) :=
      List.Perm.filter _ (sortDesc_perm kept).symm
    have h2 : Sk.filter (fun p => decide (p.uri ∉ excess)) = Sk.take maxRows := by
      conv_lhs => rw [← List.take_append_drop maxRows Sk]
      rw [List.filter_append, hdropnil, htakeall, List.append_nil]
    rw [h2] at h1
    exact h1
  have hklen : kept.length ≤ store.length := List.length_filter_le _ _
  have hflen : final.length ≤ kept.length := List.length_filter_le _ _
  refine ⟨by omega, hperm, ?_, ?_⟩
  · intro p hp
    have h1 := List.filter_sublist (l := kept) (p := fun p => decide (p.uri ∉ excess))
    have h2 : p ∈ kept := h1.subset hp
    rw [hkept, List.mem_filter] at h2
    refine ⟨h2.1, ?_⟩
    simpa using h2.2
  · intro hge
    have hlen1 : final.length = (Sk.take maxRows).length := hperm.length_eq
    have hlen2 : Sk.length = kept.length := (sortDesc_perm kept).length_eq
    rw [hlen1, List.length_take]
    omega

/-! ## Idempotent insert -/

/-- C7: inserting a row whose uri is already present leaves the store
unchanged and is not an error: the conflict clause turns the second insert
into a successful no-op. -/
theorem createPost_idempotent (store : List Post) (p q : Post) (h : q.uri = p.uri) :
    CreatePost (CreatePost store p) q = CreatePost store p := by
  unfold CreatePost
  by_cases hc : store.any (fun r => r.uri == p.uri)
  · rw [if_pos hc, h, if_pos hc]
  · rw [if_neg hc, if_pos (by simp [h])]

/-! ## Claim-side ranking by uri

The specification words rank rows by (indexedAt desc, uri desc) and say the
cursor encodes the last (indexedAt, uri) pair. The code ranks by cid. The
following definition follows the words of the specification and exists only
to be compared against the code. -/

/-- Descending comparison on rows by (indexedAt, uri), following the words
of the specification rather than the code. -/
def postUriDescLE (a b : Post) : Prop :=
  toLex (b.indexedAt, b.uri) ≤ toLex (a.indexedAt, a.uri)

instance : DecidableRel postUriDescLE :=
  fun a b => decidable_of_iff _ (pairLeb_iff (b.indexedAt, b.uri) (a.indexedAt, a.uri))

/-- The first n posts under the ordering stated by the specification,
(indexedAt desc, uri desc). -/
def specTopPostsByUriOrder (store : List Post) (n : Nat) : List Post :=
  (List.insertionSort postUriDescLE store).take n

/-- C1 counterexample to the claim as stated: with two rows sharing a
timestamp, the page order and the cursor follow the cid, not the uri: the
row with the larger cid but smaller uri comes first, and the produced
cursor carries its cid. -/
theorem getFeedPosts_cid_counterexample :
    GetFeedPosts [⟨"at://a", "9y", 1000000⟩, ⟨"at://b", "2x", 1000000⟩] 1 [] =
      some ([⟨"at://a", "9y", 1000000⟩], ['1', '0', '0', '0', ':', ':', '9', 'y']) ∧
    specTopPostsByUriOrder
      [⟨"at://a", "9y", 1000000⟩, ⟨"at://b", "2x", 1000000⟩] 1 =
      [⟨"at://b", "2x", 1000000⟩] ∧
    (⟨"at://a", "9y", 1000000⟩ : Post) ≠ ⟨"at://b", "2x", 1000000⟩ := by
  decide

/-- C2 counterexample to the claim as stated: sub-millisecond timestamps
break the pagination walk, because the cursor truncates to milliseconds, so
a row between the truncated boundary and the last returned row is skipped
and the walk omits it. -/
theorem collectFeedPages_skips_counterexample :
    collectFeedPages 4
      [⟨"at://a", "ca", 1000700⟩, ⟨"at://b", "cb", 1000300⟩,
        ⟨"at://c", "cc", 999000⟩] 1 [] =
      some [⟨"at://a", "ca", 1000700⟩, ⟨"at://c", "cc", 999000⟩] ∧
    (⟨"at://b", "cb", 1000300⟩ : Post) ∈
      [⟨"at://a", "ca", 1000700⟩, ⟨"at://b", "cb", 1000300⟩,
        ⟨"at://c", "cc", 999000⟩] ∧
    (⟨"at://b", "cb", 1000300⟩ : Post) ∉
      [⟨"at://a", "ca", 1000700⟩, ⟨"at://c", "cc", 999000⟩] := by
  decide

/-- C4 counterexample to the claim as stated: eviction keeps the top rows
ranked by cid, not by uri: with a row cap of one and equal timestamps, the
survivor is the row with the larger cid even though the other row has the
larger uri. -/
theorem deleteOldPosts_cid_counterexample :
    DeleteOldPosts [⟨"at://a", "9", 1000000⟩, ⟨"at://b", "2", 1000000⟩]
      2000000 10000000 1 = ([⟨"at://a", "9", 1000000⟩], 1) ∧
    specTopPostsByUriOrder
      [⟨"at://a", "9", 1000000⟩, ⟨"at://b", "2", 1000000⟩] 1 =
      [⟨"at://b", "2", 1000000⟩] ∧
    (⟨"at://a", "9", 1000000⟩ : Post) ≠ ⟨"at://b", "2", 1000000⟩ := by
  decide

theorem getFeedPosts_pages_witness :
    ([(⟨"wa", "wc", 0⟩ : Post)]).length = min 1 ([(⟨"wa", "wc", 0⟩ : Post)]).length :=
  ((getFeedPosts_pages [⟨"wa", "wc", 0⟩] 1 (by decide)).1 [⟨"wa", "wc", 0⟩]
    ['0', ':', ':', 'w', 'c'] (by decide)).2.2.1

theorem collectFeedPages_total_witness :
    collectFeedPages
      (([(⟨"w1", "c1", 1000⟩ : Post), ⟨"w2", "c2", 2000⟩]).length + 1)
      [⟨"w1", "c1", 1000⟩, ⟨"w2", "c2", 2000⟩] 1 [] =
      some (sortDesc [⟨"w1", "c1", 1000⟩, ⟨"w2", "c2", 2000⟩]) :=
  (collectFeedPages_total [⟨"w1", "c1", 1000⟩, ⟨"w2", "c2", 2000⟩] 1 (by decide)
    (by decide) (by decide)).1

theorem deleteOldPosts_spec_witness :
    (DeleteOldPosts [(⟨"va", "vc", 1000⟩ : Post)] 2000 500000 5).2 =
      ([(⟨"va", "vc", 1000⟩ : Post)]).length -
        (DeleteOldPosts [(⟨"va", "vc", 1000⟩ : Post)] 2000 500000 5).1.length :=
  (deleteOldPosts_spec [⟨"va", "vc", 1000⟩] 2000 500000 5 (by decide)).1

theorem createPost_idempotent_witness :
    CreatePost (CreatePost [] ⟨"u", "c", 0⟩) ⟨"u", "c", 0⟩ =
      CreatePost [] ⟨"u", "c", 0⟩ :=
  createPost_idempotent [] ⟨"u", "c", 0⟩ ⟨"u", "c", 0⟩ rfl

/-! ## The matching engine

Models NewFeedService and matchesFeed of the domain service. The compiled
keyword pattern has the fixed shape of a case-insensitive, word-boundary
delimited alternation of quoted literals, so its matching semantics is
embedded directly: some window of the text equals some keyword up to ASCII
case folding, with a word boundary on each side. A word boundary sits
between a word character, one of the ASCII letters, digits and underscore,
and a non-word character or the edge of the text. -/

/-- An incoming post from the firehose, as handed to the matching engine. -/
structure IncomingPost where
  uri : String
  cid : String
  authorDid : String
  text : String
  langs : List String
deriving DecidableEq

/-- One feed configuration, as passed to NewFeedService. -/
structure FeedConfig where
  uri : String
  keywords : List String
  langs : List String
deriving DecidableEq

/-- The compiled matching state of one feed: the alternation branches of the
quoted keyword pattern, and the language allow-list, none meaning no
filter, exactly when the configured list was empty. -/
structure CompiledFeed where
  uri : String
  keywords : List String
  langs : Option (List String)
deriving DecidableEq

/-- Models NewFeedService: construction fails when a feed declares zero
keywords; quoting makes every keyword a literal alternation branch, so the
compiled feed keeps the keyword list as is. The Go map keyed by uri is kept
as a list; configurations are assumed to use distinct uris. -/
def NewFeedService (configs : List FeedConfig) : Option (List CompiledFeed) :=
  if configs.all (fun c => !c.keywords.isEmpty) then
    some (configs.map (fun c =>
      ⟨c.uri, c.keywords, if c.langs.isEmpty then none else some c.langs⟩))
  else none

/-- Word characters of the regular expression word boundary. -/
def isWordChar (c : Char) : Bool := c.isAlpha || c.isDigit || c = '_'

/-- Word character test at a position, false beyond either end. -/
def wordAt (t : List Char) (i : Nat) : Bool :=
  match t[i]? with
  | some c => isWordChar c
  | none => false

/-- Word boundary between positions i - 1 and i. -/
def boundaryAt (t : List Char) (i : Nat) : Bool :=
  (if i = 0 then false else wordAt t (i - 1)) != wordAt t i

/-- One keyword matches at one position: the window fits, equals the keyword
up to ASCII case folding, and both ends sit on a word boundary. -/
def matchWindowAt (t : List Char) (i : Nat) (k : List Char) : Bool :=
  decide (i + k.length ≤ t.length) &&
  ((t.drop i).take k.length).map Char.toLower == k.map Char.toLower &&
  boundaryAt t i && boundaryAt t (i + k.length)

/-- Models MatchString of the compiled pattern: some alternation branch
matches at some position of the text. -/
def patternMatchString (keywords : List String) (t : List Char) : Bool :=
  (List.range (t.length + 1)).any (fun i =>
    keywords.any (fun kw => matchWindowAt t i kw.data))

/-- Models matchesFeed: the language filter is checked first and
short-circuits, then the keyword pattern is run over the text. -/
def matchesFeed (f : CompiledFeed) (incoming : IncomingPost) : Bool :=
  (match f.langs with
   | none => true
   | some ls => incoming.langs.any (fun l => ls.any (fun m => m == l))) &&
  patternMatchString f.keywords incoming.text.data

/-- Models matchesAnyFeed: true when at least one feed matches. -/
def matchesAnyFeed (feeds : List CompiledFeed) (incoming : IncomingPost) : Bool :=
  feeds.any (fun f => matchesFeed f incoming)

/-! ### Declarative reading of the keyword test -/

/-- Word character test on an optional character, false at the edges. -/
def wordOpt : Option Char → Bool
  | some c => isWordChar c
  | none => false

/-- The keyword occupies the middle of a decomposition of the text, up to
ASCII case folding, with a word boundary on each side of it. -/
def WholeWordAt (kw : String) (pre mid post : List Char) : Prop :=
  mid.map Char.toLower = kw.data.map Char.toLower ∧
  wordOpt pre.getLast? ≠ wordOpt ((mid ++ post).head?) ∧
  wordOpt ((pre ++ mid).getLast?) ≠ wordOpt post.head?

/-- The keyword appears somewhere in the text as a standalone whole word. -/
def ContainsWholeWord (kw : String) (t : List Char) : Prop :=
  ∃ pre mid post, t = pre ++ mid ++ post ∧ WholeWordAt kw pre mid post

theorem wordOpt_head_drop (t : List Char) (i : Nat) :
    wordOpt (t.drop i).head? = wordAt t i := by
  rw [List.head?_drop]
  cases h : t[i]? <;> simp [wordOpt, wordAt, h]

theorem wordOpt_getLast_take (t : List Char) (i : Nat) (hle : i ≤ t.length) :
    wordOpt (t.take i).getLast? = (if i = 0 then false else wordAt t (i - 1)) := by
  by_cases h0 : i = 0
  · subst h0
    simp [wordOpt]
  · rw [if_neg h0, List.getLast?_eq_getElem?]
    have hlen : (t.take i).length = i := by
      rw [List.length_take]; omega
    rw [hlen, List.getElem?_take]
    rw [if_pos (by omega)]
    cases h : t[i - 1]? <;> simp [wordOpt, wordAt, h]

/-- The scanner agrees with the declarative whole-word occurrence reading:
this is the semantic content of the compiled pattern. -/
theorem patternMatchString_iff (keywords : List String) (t : List Char) :
    patternMatchString keywords t = true ↔
      ∃ kw ∈ keywords, ContainsWholeWord kw t := by
  unfold patternMatchString
  rw [List.any_eq_true]
  constructor
  · rintro ⟨i, hi, hkw⟩
    rw [List.mem_range] at hi
    rw [List.any_eq_true] at hkw
    obtain ⟨kw, hkwmem, hmatch⟩ := hkw
    unfold matchWindowAt at hmatch
    simp only [Bool.and_eq_true, decide_eq_true_eq, beq_iff_eq, bne_iff_ne,
      boundaryAt] at hmatch
    obtain ⟨⟨⟨hlen, hmap⟩, hb1⟩, hb2⟩ := hmatch
    have hmp : (t.drop i).take kw.data.length ++ t.drop (i + kw.data.length) =
        t.drop i := by
      conv_rhs => rw [← List.take_append_drop kw.data.length (t.drop i)]
      rw [List.drop_drop]
    have he3 : t.take i ++ (t.drop i).take kw.data.length =
        t.take (i + kw.data.length) := (List.take_add t i kw.data.length).symm
    refine ⟨kw, hkwmem, t.take i, (t.drop i).take kw.data.length,
      t.drop (i + kw.data.length), ?_, hmap, ?_, ?_⟩
    · conv_lhs => rw [← List.take_append_drop i t]
      rw [List.append_assoc, hmp]
    · rw [wordOpt_getLast_take t i (by omega), hmp, wordOpt_head_drop]
      exact hb1
    · rw [he3, wordOpt_getLast_take t (i + kw.data.length) hlen, wordOpt_head_drop]
      exact hb2
  · rintro ⟨kw, hkwmem, pre, mid, post, hdecomp, hmap, hb1, hb2⟩
    have hmidlen : mid.length = kw.data.length := by
      have := congrArg List.length hmap
      simpa using this
    refine ⟨pre.length, ?_, ?_⟩
    · rw [List.mem_range, hdecomp]
      simp only [List.length_append]
      omega
    · rw [List.any_eq_true]
      refine ⟨kw, hkwmem, ?_⟩
      unfold matchWindowAt
      simp only [Bool.and_eq_true, decide_eq_true_eq, beq_iff_eq, bne_iff_ne,
        boundaryAt]
      subst hdecomp
      have hassoc : pre ++ mid ++ post = pre ++ (mid ++ post) := List.append_assoc _ _ _
      have hdroppre : (pre ++ mid ++ post).drop pre.length = mid ++ post := by
        rw [hassoc, List.drop_left]
      have hwindow : ((pre ++ mid ++ post).drop pre.length).take kw.data.length =
          mid := by
        rw [hdroppre, ← hmidlen, List.take_left]
      have htakepre : (pre ++ mid ++ post).take pre.length = pre := by
        rw [hassoc, List.take_left]
      have htakepm : (pre ++ mid ++ post).take (pre.length + kw.data.length) =
          pre ++ mid := by
        rw [← hmidlen, ← List.length_append pre mid, List.take_left]
      have hdroppm : (pre ++ mid ++ post).drop (pre.length + kw.data.length) =
          post := by
        rw [← hmidlen, ← List.length_append pre mid, List.drop_left]
      refine ⟨⟨⟨?_, ?_⟩, ?_⟩, ?_⟩
      · simp only [List.length_append]
        omega
      · rw [hwindow]
        exact hmap
      · rw [← wordOpt_getLast_take (pre ++ mid ++ post) pre.length
          (by simp only [List.length_append]; omega), htakepre,
          ← wordOpt_head_drop (pre ++ mid ++ post) pre.length, hdroppre]
        exact hb1
      · rw [← wordOpt_getLast_take (pre ++ mid ++ post)
          (pre.length + kw.data.length)
          (by simp only [List.length_append]; omega), htakepm,
          ← wordOpt_head_drop (pre ++ mid ++ post) (pre.length + kw.data.length),
          hdroppm]
        exact hb2

theorem matchesFeed_iff (f : CompiledFeed) (incoming : IncomingPost) :
    matchesFeed f incoming = true ↔
      (∀ ls, f.langs = some ls → ∃ l ∈ incoming.langs, l ∈ ls) ∧
      ∃ kw ∈ f.keywords, ContainsWholeWord kw incoming.text.data := by
  unfold matchesFeed
  rw [Bool.and_eq_true, patternMatchString_iff]
  cases hl : f.langs with
  | none => simp
  | some ls =>
    simp only [List.any_eq_true, beq_iff_eq, Option.some.injEq]
    constructor
    · rintro ⟨⟨l, hlmem, m, hmmem, hml⟩, hkw⟩
      exact ⟨fun ls' hls' => ⟨l, hlmem, by rw [← hls']; exact hml ▸ hmmem⟩, hkw⟩
    · rintro ⟨hlang, hkw⟩
      obtain ⟨l, hlmem, hlls⟩ := hlang ls rfl
      exact ⟨⟨l, hlmem, l, hlls, rfl⟩, hkw⟩

/-- C3: matchesAny is true exactly when some configured rule passes its
language test, the tags intersecting the allow-list or the rule having
none, and some keyword of that rule occurs in the text as a standalone
whole word up to ASCII case folding, the keyword characters taken
literally. An event with no language tags never passes a non-empty
allow-list, since the intersection is empty. -/
theorem matchesAnyFeed_iff (feeds : List CompiledFeed) (incoming : IncomingPost) :
    matchesAnyFeed feeds incoming = true ↔
      ∃ f ∈ feeds,
        (∀ ls, f.langs = some ls → ∃ l ∈ incoming.langs, l ∈ ls) ∧
        ∃ kw ∈ f.keywords, ContainsWholeWord kw incoming.text.data := by
  unfold matchesAnyFeed
  rw [List.any_eq_true]
  constructor
  · rintro ⟨f, hf, hm⟩
    exact ⟨f, hf, (matchesFeed_iff f incoming).mp hm⟩
  · rintro ⟨f, hf, hm⟩
    exact ⟨f, hf, (matchesFeed_iff f incoming).mpr hm⟩

example : patternMatchString ["gpt-4"] "trying gpt-4 today".data = true := by decide

example : patternMatchString ["gpt-4"] "gpt-40 today".data = false := by decide

example : patternMatchString ["gpt-4"] "GPT4".data = false := by decide

example : patternMatchString ["gpt-4"] "Trying GPT-4 Today!".data = true := by decide

/-! ## The domain service write path -/

/-- Models ProcessNewPost: on a match, persist the post stamped with the
indexing time; otherwise report false with no error and leave the store
untouched. -/
def ProcessNewPost (feeds : List CompiledFeed) (store : List Post)
    (incoming : IncomingPost) (now : Int) : Bool × List Post :=
  if matchesAnyFeed feeds incoming then
    (true, CreatePost store ⟨incoming.uri, incoming.cid, now⟩)
  else (false, store)

/-- C10: an incoming post matching no feed returns false and performs no
store operation: the resulting store is the input store. -/
theorem processNewPost_no_match_frame (feeds : List CompiledFeed)
    (store : List Post) (incoming : IncomingPost) (now : Int)
    (h : matchesAnyFeed feeds incoming = false) :
    ProcessNewPost feeds store incoming now = (false, store) := by
  unfold ProcessNewPost
  simp [h]

theorem processNewPost_no_match_frame_witness :
    ProcessNewPost [⟨"at://feed", ["agentic"], none⟩]
      [⟨"p", "c", 0⟩] ⟨"u", "c", "d", "hello world", []⟩ 5 =
      (false, [⟨"p", "c", 0⟩]) :=
  processNewPost_no_match_frame [⟨"at://feed", ["agentic"], none⟩]
    [⟨"p", "c", 0⟩] ⟨"u", "c", "d", "hello world", []⟩ 5 (by decide)

/-! ## The firehose subscriber connection set-up

Models buildURL and the head of subscribe. The connection URL is modelled by
its query parameters in the order produced by Encode, which sorts keys, so
the cursor parameter precedes the collection parameters. -/

/-- The collections requested from the stream. -/
def wantedCollections : List String := ["app.bsky.feed.post"]

/-- Models Subscriber.buildURL: one wantedCollections parameter per
collection of interest, and a cursor parameter exactly when the cursor is
strictly positive. -/
def buildURL (cursor : Int) : List (String × List Char) :=
  (if 0 < cursor then [("cursor", intToChars cursor)] else []) ++
    wantedCollections.map (fun c => ("wantedCollections", c.data))

/-- Models the head of Subscriber.subscribe: read the stored checkpoint; a
failed read is logged and the zero value is used, so the connection starts
from the live edge; then build the URL from the value read. -/
def subscribeConnect (committed : Int) (readErr : Bool) : List (String × List Char) :=
  buildURL (if readErr then 0 else committed)

/-- C8 (amended): on entry the subscriber reads the committed checkpoint
and requests only the collections of interest; a strictly positive
checkpoint is carried as the resume position, while a zero or negative
checkpoint produces no resume parameter, starting from the live edge. -/
theorem subscribeConnect_resume (committed : Int) :
    (0 < committed →
      subscribeConnect committed false =
        [("cursor", intToChars committed),
          ("wantedCollections", "app.bsky.feed.post".data)]) ∧
    (committed ≤ 0 →
      subscribeConnect committed false =
        [("wantedCollections", "app.bsky.feed.post".data)]) ∧
    (∀ kv ∈ subscribeConnect committed false,
      kv.1 = "cursor" ∨ kv.1 = "wantedCollections") := by
  refine ⟨?_, ?_, ?_⟩
  · intro h
    simp [subscribeConnect, buildURL, wantedCollections, h]
  · intro h
    simp [subscribeConnect, buildURL, wantedCollections, not_lt.mpr h]
  · intro kv hkv
    unfold subscribeConnect buildURL wantedCollections at hkv
    by_cases h : (0 : Int) < committed
    · simp only [if_neg Bool.false_ne_true, h, if_pos] at hkv
      rcases List.mem_append.mp hkv with h1 | h1
      · rw [List.mem_singleton] at h1
        subst h1
        exact Or.inl rfl
      · simp only [List.map_cons, List.map_nil, List.mem_singleton] at h1
        subst h1
        exact Or.inr rfl
    · simp only [if_neg Bool.false_ne_true, h, if_false, List.nil_append,
        List.map_cons, List.map_nil, List.mem_singleton] at hkv
      subst hkv
      exact Or.inr rfl

theorem subscribeConnect_resume_witness :
    subscribeConnect 7 false =
      [("cursor", intToChars 7), ("wantedCollections", "app.bsky.feed.post".data)] :=
  (subscribeConnect_resume 7).1 (by decide)

/-- C8 counterexample to the claim as stated: a non-zero but negative
checkpoint value carries no resume position, because the code tests for a
strictly positive value. -/
theorem buildURL_nonzero_counterexample :
    buildURL (-1) = [("wantedCollections", "app.bsky.feed.post".data)] ∧
    subscribeConnect (-1) false =
      [("wantedCollections", "app.bsky.feed.post".data)] ∧
    (-1 : Int) ≠ 0 := by
  decide

/-- C9: when the checkpoint read fails, the subscriber proceeds with the
zero value: the connection request is exactly the live-edge request and
names no resume position, whatever the committed value was, so events
between the committed checkpoint and the live edge are skipped. -/
theorem subscribeConnect_read_error_live (committed : Int) :
    subscribeConnect committed true = buildURL 0 ∧
    (∀ kv ∈ subscribeConnect committed true, kv.1 ≠ "cursor") := by
  constructor
  · rfl
  · intro kv hkv
    unfold subscribeConnect buildURL wantedCollections at hkv
    simp only [if_true, lt_self_iff_false, if_false, List.nil_append,
      List.map_cons, List.map_nil, List.mem_singleton] at hkv
    subst hkv
    decide

/-! ## Checkpoint persistence across a subscriber run

Models the streaming loop of subscribe as far as the checkpoint is
concerned. Each received message either fails to parse, in which case the
loop continues and no save can happen on that iteration, or carries a
stream position that overwrites the latest-cursor variable; when the save
interval has elapsed on that iteration the latest value is written through
UpdateCursor, whose upsert blindly overwrites the stored row, and the write
itself can fail, leaving the stored value unchanged.

A run is a sequence of sessions, each beginning with a checkpoint read that
may fail, subscribe falling back to zero and the live edge in that case.
The environment assumptions of the specification are collected in envOK:
positions within a session are nondecreasing as assigned by the source,
a session delivers only positions at or past its connect cursor, and a
live-edge session after a failed read delivers only positions at or past
everything delivered before. -/

/-- One received stream message: its parsed position, or none when the
message is malformed; whether the save interval elapsed on this iteration;
and whether the save write itself succeeded. -/
structure FireMsg where
  pos : Option Int
  save : Bool
  saveOk : Bool
deriving DecidableEq

/-- One connection session: whether the checkpoint read failed at its head,
and the messages received until the connection ended. -/
structure FireSession where
  readErr : Bool
  msgs : List FireMsg
deriving DecidableEq

/-- The positions delivered in a session, in order. -/
def positionsOf (msgs : List FireMsg) : List Int :=
  msgs.filterMap (fun m => m.pos)

/-- Models one session loop: threads the stored checkpoint value and
collects the values actually written to the cursor store, in order. A save
writes the position of the message just processed, since the loop skips the
save block on parse failures. -/
def sessionRun : Int → List FireMsg → Int × List Int
  | c, [] => (c, [])
  | c, m :: rest =>
    match m.pos with
    | none => sessionRun c rest
    | some p =>
      if m.save && m.saveOk then
        ((sessionRun p rest).1, p :: (sessionRun p rest).2)
      else sessionRun c rest

/-- All checkpoint values written during a run, in order. -/
def runWrites : Int → List FireSession → List Int
  | _, [] => []
  | c, s :: rest =>
    (sessionRun c s.msgs).2 ++ runWrites (sessionRun c s.msgs).1 rest

/-- The environment assumptions of the specification, relative to the set
of positions delivered so far and the stored checkpoint value. -/
def envOK : List Int → Int → List FireSession → Bool
  | _, _, [] => true
  | seen, c, s :: rest =>
    decide (List.Pairwise (fun a b : Int => a ≤ b) (positionsOf s.msgs)) &&
    (positionsOf s.msgs).all
      (fun p => decide ((if s.readErr then 0 else c) ≤ p)) &&
    (!s.readErr || (positionsOf s.msgs).all
      (fun p => seen.all (fun q => decide (q ≤ p)))) &&
    envOK (seen ++ positionsOf s.msgs) (sessionRun c s.msgs).1 rest

theorem sessionRun_props (msgs : List FireMsg) : ∀ c : Int,
    List.Pairwise (· ≤ ·) (positionsOf msgs) →
    (∀ p ∈ positionsOf msgs, c ≤ p) →
    List.Pairwise (· ≤ ·) (c :: (sessionRun c msgs).2) ∧
    c ≤ (sessionRun c msgs).1 ∧
    (∀ w ∈ (sessionRun c msgs).2, w ≤ (sessionRun c msgs).1) ∧
    ((sessionRun c msgs).1 = c ∨ (sessionRun c msgs).1 ∈ positionsOf msgs) ∧
    (∀ w ∈ (sessionRun c msgs).2, w ∈ positionsOf msgs) := by
  induction msgs with
  | nil =>
    intro c _ _
    simp [sessionRun]
  | cons m rest ih =>
    intro c hsort hlb
    cases hp : m.pos with
    | none =>
      have hps : positionsOf (m :: rest) = positionsOf rest := by
        simp [positionsOf, List.filterMap_cons, hp]
      rw [hps] at hsort hlb
      have hred : sessionRun c (m :: rest) = sessionRun c rest := by
        rw [sessionRun, hp]
      rw [hred, hps]
      exact ih c hsort hlb
    | some p =>
      have hps : positionsOf (m :: rest) = p :: positionsOf rest := by
        simp [positionsOf, List.filterMap_cons, hp]
      rw [hps] at hsort hlb
      rw [List.pairwise_cons] at hsort
      obtain ⟨hphead, hsort'⟩ := hsort
      have hcp : c ≤ p := hlb p (List.mem_cons_self _ _)
      by_cases hsv : (m.save && m.saveOk) = true
      · have hred : sessionRun c (m :: rest) =
            ((sessionRun p rest).1, p :: (sessionRun p rest).2) := by
          rw [sessionRun, hp]
          dsimp only
          rw [if_pos hsv]
        obtain ⟨ihpw, ihle, ihbound, ihfin, ihmem⟩ := ih p hsort' hphead
        rw [hred, hps]
        refine ⟨?_, le_trans hcp ihle, ?_, ?_, ?_⟩
        · rw [List.pairwise_cons]
          refine ⟨?_, ihpw⟩
          intro w hw
          rcases List.mem_cons.mp hw with h1 | h1
          · exact h1 ▸ hcp
          · exact le_trans hcp ((List.pairwise_cons.mp ihpw).1 w h1)
        · intro w hw
          rcases List.mem_cons.mp hw with h1 | h1
          · exact h1 ▸ ihle
          · exact ihbound w h1
        · rcases ihfin with h1 | h1
          · exact Or.inr (by rw [h1]; exact List.mem_cons_self _ _)
          · exact Or.inr (List.mem_cons_of_mem _ h1)
        · intro w hw
          rcases List.mem_cons.mp hw with h1 | h1
          · rw [h1]
            exact List.mem_cons_self _ _
          · exact List.mem_cons_of_mem _ (ihmem w h1)
      · have hred : sessionRun c (m :: rest) = sessionRun c rest := by
          rw [sessionRun, hp]
          dsimp only
          rw [if_neg hsv]
        obtain ⟨ihpw, ihle, ihbound, ihfin, ihmem⟩ := ih c hsort'
          (fun q hq => hlb q (List.mem_cons_of_mem _ hq))
        rw [hred, hps]
        refine ⟨ihpw, ihle, ihbound, ?_, ?_⟩
        · rcases ihfin with h1 | h1
          · exact Or.inl h1
          · exact Or.inr (List.mem_cons_of_mem _ h1)
        · intro w hw
          exact List.mem_cons_of_mem _ (ihmem w hw)

theorem runWrites_mono (run : List FireSession) : ∀ (seen : List Int) (c : Int),
    envOK seen c run = true → (c = 0 ∨ c ∈ seen) →
    List.Pairwise (· ≤ ·) (c :: runWrites c run) := by
  induction run with
  | nil =>
    intro seen c _ _
    simp [runWrites]
  | cons s rest ih =>
    intro seen c henv hc
    rw [envOK] at henv
    simp only [Bool.and_eq_true, decide_eq_true_eq, List.all_eq_true,
      Bool.or_eq_true, Bool.not_eq_true'] at henv
    obtain ⟨⟨⟨hsort, heff⟩, hlive⟩, henv'⟩ := henv
    have hlb : ∀ p ∈ positionsOf s.msgs, c ≤ p := by
      intro p hp
      by_cases hre : s.readErr
      · rcases hc with h0 | hmem
        · have := heff p hp
          rw [if_pos hre] at this
          rw [h0]
          exact this
        · rcases hlive with hfalse | hall
          · rw [hre] at hfalse
            exact absurd hfalse (by simp)
          · exact hall p hp c hmem
      · have := heff p hp
        rw [if_neg hre] at this
        exact this
    obtain ⟨spw, sle, sbound, sfin, smem⟩ := sessionRun_props s.msgs c hsort hlb
    have hc' : (sessionRun c s.msgs).1 = 0 ∨
        (sessionRun c s.msgs).1 ∈ seen ++ positionsOf s.msgs := by
      rcases sfin with h1 | h1
      · rw [h1]
        rcases hc with h0 | hm
        · exact Or.inl h0
        · exact Or.inr (List.mem_append.mpr (Or.inl hm))
      · exact Or.inr (List.mem_append.mpr (Or.inr h1))
    have ihpw := ih (seen ++ positionsOf s.msgs) (sessionRun c s.msgs).1 henv' hc'
    rw [runWrites, List.pairwise_cons]
    constructor
    · intro w hw
      rcases List.mem_append.mp hw with h1 | h1
      · exact hlb w (smem w h1)
      · exact le_trans sle ((List.pairwise_cons.mp ihpw).1 w h1)
    · rw [List.pairwise_append]
      refine ⟨(List.pairwise_cons.mp spw).2, (List.pairwise_cons.mp ihpw).2, ?_⟩
      intro a ha b hb
      exact le_trans (sbound a ha) ((List.pairwise_cons.mp ihpw).1 b hb)

/-- C5: under the environment assumptions of the specification, the
sequence of persisted checkpoint values for the stream never moves
backward: starting from the absent value zero, every later write is at
least every earlier one. -/
theorem checkpoint_monotone (run : List FireSession)
    (henv : envOK [] 0 run = true) :
    List.Pairwise (· ≤ ·) ((0 : Int) :: runWrites 0 run) :=
  runWrites_mono run [] 0 henv (Or.inl rfl)

theorem checkpoint_monotone_witness :
    List.Pairwise (· ≤ ·) ((0 : Int) :: runWrites 0
      [⟨false, [⟨some 5, true, true⟩, ⟨some 7, true, false⟩,
        ⟨some 9, true, true⟩]⟩, ⟨true, [⟨some 12, true, true⟩]⟩]) :=
  checkpoint_monotone
    [⟨false, [⟨some 5, true, true⟩, ⟨some 7, true, false⟩,
      ⟨some 9, true, true⟩]⟩, ⟨true, [⟨some 12, true, true⟩]⟩] (by decide)

/-! ## The read path

Models FeedService.GetFeedSkeleton and Server.handleGetFeedSkeleton. The
service reports two failures: an unknown feed uri, and the error coming
back from the repository, whose only deterministic failure is a cursor that
fails to decode. The handler cannot distinguish the two: any service error
is reported as an internal failure. -/

/-- Failure cases of the skeleton service visible in the model. -/
inductive SkelError where
  | unknownFeed : SkelError
  | invalidCursor : SkelError
deriving DecidableEq

/-- Models FeedService.GetFeedSkeleton: validate the feed uri against the
registered feeds, then page the repository. -/
def GetFeedSkeleton (feeds : List CompiledFeed) (store : List Post)
    (feedURI : String) (limit : Nat) (cursor : List Char) :
    Except SkelError (List String × List Char) :=
  if feeds.any (fun f => f.uri == feedURI) then
    match GetFeedPosts store limit cursor with
    | none => .error .invalidCursor
    | some (posts, next) => .ok (posts.map Post.uri, next)
  else .error .unknownFeed

/-- The response written by the handler: a skeleton, or an error body with
its HTTP status and type string. -/
inductive SkelResponse where
  | success (posts : List String) (cursor : List Char) : SkelResponse
  | failure (status : Nat) (errType : String) (message : String) : SkelResponse
deriving DecidableEq

/-- Models Server.handleGetFeedSkeleton: a missing feed parameter and a
limit outside one to one hundred are typed InvalidRequest rejections; the
default limit is fifty; any error from the service is reported as a 500
InternalError. -/
def handleGetFeedSkeleton (feeds : List CompiledFeed) (store : List Post)
    (feedParam : String) (limitParam cursorParam : List Char) : SkelResponse :=
  if feedParam = "" then
    .failure 400 "InvalidRequest" "feed parameter is required"
  else
    match (if limitParam = [] then some 50 else
      match parseIntChars limitParam with
      | none => none
      | some v => if v < 1 ∨ 100 < v then none else some v : Option Int) with
    | none => .failure 400 "InvalidRequest" "limit must be between 1 and 100"
    | some lim =>
      match GetFeedSkeleton feeds store feedParam lim.toNat cursorParam with
      | .error _ => .failure 500 "InternalError" "failed to get feed"
      | .ok (posts, next) => .success posts next

/-- C6 counterexample to the claim as stated: an unknown feed and an
undecodable cursor are both reported as a 500 InternalError, not as typed
client rejections. -/
theorem handleGetFeedSkeleton_internal_counterexample :
    handleGetFeedSkeleton [⟨"at://feed", ["x"], none⟩] [] "at://unknown" [] [] =
      .failure 500 "InternalError" "failed to get feed" ∧
    handleGetFeedSkeleton [⟨"at://feed", ["x"], none⟩] [] "at://feed" [] ['z'] =
      .failure 500 "InternalError" "failed to get feed" := by
  decide

/-- C6 (amended): only the request-syntax failures are typed client
rejections: a missing feed parameter and an unparsable or out-of-range
limit yield a 400 InvalidRequest; an unknown feed or an undecodable cursor
surfaces from the service as an opaque error reported as a 500
InternalError; a well-formed request on a known feed succeeds. -/
theorem handleGetFeedSkeleton_errors (feeds : List CompiledFeed)
    (store : List Post) (feedParam : String) (limitParam cursorParam : List Char) :
    (feedParam = "" →
      handleGetFeedSkeleton feeds store feedParam limitParam cursorParam =
        .failure 400 "InvalidRequest" "feed parameter is required") ∧
    (feedParam ≠ "" → limitParam ≠ [] →
      (parseIntChars limitParam = none ∨
        ∃ v, parseIntChars limitParam = some v ∧ (v < 1 ∨ 100 < v)) →
      handleGetFeedSkeleton feeds store feedParam limitParam cursorParam =
        .failure 400 "InvalidRequest" "limit must be between 1 and 100") ∧
    (feedParam ≠ "" → limitParam = [] →
      feeds.any (fun f => f.uri == feedParam) = false →
      handleGetFeedSkeleton feeds store feedParam limitParam cursorParam =
        .failure 500 "InternalError" "failed to get feed") ∧
    (feedParam ≠ "" → limitParam = [] →
      feeds.any (fun f => f.uri == feedParam) = true →
      cursorParam ≠ [] → parseCursor cursorParam = none →
      handleGetFeedSkeleton feeds store feedParam limitParam cursorParam =
        .failure 500 "InternalError" "failed to get feed") ∧
    (feedParam ≠ "" → limitParam = [] →
      feeds.any (fun f => f.uri == feedParam) = true →
      cursorParam = [] →
      ∃ posts next,
        handleGetFeedSkeleton feeds store feedParam limitParam cursorParam =
          SkelResponse.success posts next) := by
  refine ⟨?_, ?_, ?_, ?_, ?_⟩
  · intro h
    rw [handleGetFeedSkeleton, if_pos h]
  · intro h1 h2 h3
    rw [handleGetFeedSkeleton, if_neg h1, if_neg h2]
    rcases h3 with hnone | ⟨v, hv, hrange⟩
    · rw [hnone]
    · rw [hv]
      dsimp only
      rw [if_pos hrange]
  · intro h1 h2 h3
    rw [handleGetFeedSkeleton, if_neg h1, if_pos h2]
    dsimp only
    rw [GetFeedSkeleton, if_neg (by rw [h3]; exact Bool.false_ne_true)]
  · intro h1 h2 h3 h4 h5
    rw [handleGetFeedSkeleton, if_neg h1, if_pos h2]
    dsimp only
    rw [GetFeedSkeleton, if_pos h3, GetFeedPosts, if_pos h4, h5]
  · intro h1 h2 h3 h4
    rw [handleGetFeedSkeleton, if_neg h1, if_pos h2]
    dsimp only
    rw [GetFeedSkeleton, if_pos h3, h4]
    rw [GetFeedPosts, if_neg (by simp)]
    exact ⟨_, _, rfl⟩

theorem handleGetFeedSkeleton_errors_witness :
    handleGetFeedSkeleton [⟨"at://f", ["k"], none⟩] [] "at://nope" [] [] =
      SkelResponse.failure 500 "InternalError" "failed to get feed" :=
  (handleGetFeedSkeleton_errors [⟨"at://f", ["k"], none⟩] [] "at://nope" [] []).2.2.1
    (by decide) rfl (by decide)
